import Mathlib

/-!
# Verification of the inf141 A2 crawler against its specification

Shallow embedding of the crawler's core modules (`src/scraper.py`,
`src/crawler/frontier.py`, `src/crawler/worker.py`) and proofs of the
frozen claims about them.  Python strings are modelled as Lean `String`
(ASCII payloads, as produced by the crawler's own ASCII-filtering), wall
clock times (`time.time()`) as `ℤ` (the politeness logic only compares
linear expressions in times, so the one float division `time_delay / 2`
is embedded as the exact cleared-denominator comparison), machine
integers as `ℕ` with explicit `% 2^64` where the source masks to 64
bits, and the float literal `0.1` of `is_similar_content` as an exact
`ℚ`.
-/

namespace Crawler

/-! ## String utilities mirroring Python primitives -/

/-- ASCII lowercase of one character (Python `str.lower` on ASCII input). -/
def lowerChar (c : Char) : Char :=
  if 'A' ≤ c ∧ c ≤ 'Z' then Char.ofNat (c.toNat + 32) else c

/-- Python `str.lower()` restricted to ASCII strings. -/
def pyLower (s : String) : String :=
  String.mk (s.toList.map lowerChar)

/-- Python whitespace characters (`str.split` / `str.strip` class, ASCII part). -/
def pySpace (c : Char) : Bool :=
  c = ' ' ∨ c = '\t' ∨ c = '\n' ∨ c = '\r' ∨ c = Char.ofNat 11 ∨ c = Char.ofNat 12

/-- Substring test on character lists (Python `pat in hay`). -/
def containsL (pat : List Char) : List Char → Bool
  | [] => pat.isPrefixOf []
  | c :: t => pat.isPrefixOf (c :: t) || containsL pat t

/-- Python `pat in hay` on strings. -/
def strContains (hay pat : String) : Bool :=
  containsL pat.toList hay.toList

/-- Index of the first occurrence of `c`, if any (Python `str.find`). -/
def findChar (cs : List Char) (c : Char) : Option ℕ :=
  match cs with
  | [] => none
  | d :: t => if d = c then some 0 else (findChar t c).map (· + 1)

/-- Index of the last occurrence of `c`, if any (Python `str.rfind`). -/
def rfindChar (cs : List Char) (c : Char) : Option ℕ :=
  match cs with
  | [] => none
  | d :: t =>
      match rfindChar t c with
      | some i => some (i + 1)
      | none => if d = c then some 0 else none

/-- Split at the first occurrence of `c`: Python `s.split(c, 1)` when `c`
occurs; returns `none` when it does not. -/
def splitFirst (cs : List Char) (c : Char) : Option (List Char × List Char) :=
  match cs with
  | [] => none
  | d :: t =>
      if d = c then some ([], t)
      else (splitFirst t c).map (fun p => (d :: p.1, p.2))

/-- Python `s.startswith(p)` (list form, kernel-reducible). -/
def strStartsWith (s p : String) : Bool :=
  p.toList.isPrefixOf s.toList

/-- Python `s.endswith(p)` (list form, kernel-reducible). -/
def strEndsWith (s p : String) : Bool :=
  p.toList.isSuffixOf s.toList

/-- Count of non-overlapping occurrences of `pat` scanning left to right
(`len(re.findall(pat, hay))` for a plain-literal pattern).  The fuel
argument only bounds the recursion; every step consumes at least one
character, so fuel `≥ length` is enough. -/
def countOccurAux (pat : List Char) : ℕ → List Char → ℕ
  | 0, _ => 0
  | _ + 1, [] => 0
  | fuel + 1, c :: t =>
      if pat.isPrefixOf (c :: t) then
        1 + countOccurAux pat fuel (t.drop (pat.length - 1))
      else countOccurAux pat fuel t

/-- `len(re.findall(pat, hay))` on strings, for a literal pattern. -/
def countOccur (hay pat : String) : ℕ :=
  countOccurAux pat.toList hay.toList.length hay.toList

/-- Python `str.count` for a single character. -/
def countChar (s : String) (c : Char) : ℕ :=
  s.toList.count c

/-! ## `urllib.parse.urlparse` embedding

Faithful to CPython's `urlsplit`/`urlparse` for the URL shapes in scope:
tab/CR/LF stripping, scheme extraction (leading alpha then scheme chars
up to `:`), `//netloc` up to `/?#`, fragment split at the first `#`,
query split at the first `?`, and the `;params` split from the last path
segment that `urlparse` performs for schemes using parameters. -/

/-- Characters CPython strips from a URL before splitting. -/
def unsafeURLByte (c : Char) : Bool :=
  c = '\t' ∨ c = '\r' ∨ c = '\n'

/-- Characters allowed in a scheme after the first letter. -/
def schemeChar (c : Char) : Bool :=
  ('a' ≤ c ∧ c ≤ 'z') ∨ ('A' ≤ c ∧ c ≤ 'Z') ∨ ('0' ≤ c ∧ c ≤ '9') ∨
    c = '+' ∨ c = '-' ∨ c = '.'

/-- ASCII letter test (Python `str.isalpha` on ASCII). -/
def isAsciiAlpha (c : Char) : Bool :=
  ('a' ≤ c ∧ c ≤ 'z') ∨ ('A' ≤ c ∧ c ≤ 'Z')

structure SplitResult where
  scheme : String
  netloc : String
  path : String
  query : String
  fragment : String
  deriving Repr, DecidableEq

/-- CPython `urllib.parse.urlsplit` on an already-byte-clean URL. -/
def urlsplitCore (cs0 : List Char) : SplitResult :=
  -- scheme
  let schemeSplit :=
    match splitFirst cs0 ':' with
    | some (pre, post) =>
        if pre ≠ [] ∧ isAsciiAlpha (pre.headD ' ') ∧ pre.all schemeChar then
          (String.mk (pre.map lowerChar), post)
        else ("", cs0)
    | none => ("", cs0)
  let scheme := schemeSplit.1
  let rest1 := schemeSplit.2
  -- netloc
  let netlocSplit :=
    match rest1 with
    | '/' :: '/' :: t =>
        (String.mk (t.takeWhile (fun c => ¬ (c = '/' ∨ c = '?' ∨ c = '#'))),
         t.dropWhile (fun c => ¬ (c = '/' ∨ c = '?' ∨ c = '#')))
    | _ => ("", rest1)
  let netloc := netlocSplit.1
  let rest2 := netlocSplit.2
  -- fragment
  let fragSplit :=
    match splitFirst rest2 '#' with
    | some (pre, post) => (pre, String.mk post)
    | none => (rest2, "")
  let rest3 := fragSplit.1
  let fragment := fragSplit.2
  -- query
  let querySplit :=
    match splitFirst rest3 '?' with
    | some (pre, post) => (pre, String.mk post)
    | none => (rest3, "")
  ⟨scheme, netloc, String.mk querySplit.1, querySplit.2, fragment⟩

/-- `urlsplit` including the unsafe-byte removal. -/
def urlsplitF (url : String) : SplitResult :=
  urlsplitCore (url.toList.filter (fun c => ¬ unsafeURLByte c))

/-- Schemes for which `urlparse` splits `;params` from the path. -/
def usesParams : List String :=
  ["", "ftp", "hdl", "prospero", "http", "imap", "https", "shttp", "rtsp",
   "rtsps", "rtspu", "sip", "sips", "mms", "sftp", "tel"]

/-- CPython `urllib.parse._splitparams`. -/
def splitParams (cs : List Char) : List Char × List Char :=
  match findChar cs '/' with
  | some _ =>
      let j := (rfindChar cs '/').getD 0
      (match findChar (cs.drop j) ';' with
       | some k => (cs.take (j + k), cs.drop (j + k + 1))
       | none => (cs, []))
  | none =>
      (match findChar cs ';' with
       | some i => (cs.take i, cs.drop (i + 1))
       | none => (cs, []))

structure ParseResult where
  scheme : String
  netloc : String
  path : String
  params : String
  query : String
  fragment : String
  deriving Repr, DecidableEq

/-- CPython `urllib.parse.urlparse`. -/
def urlparseF (url : String) : ParseResult :=
  let s := urlsplitF url
  if s.scheme ∈ usesParams ∧ strContains s.path ";" then
    let pp := splitParams s.path.toList
    ⟨s.scheme, s.netloc, String.mk pp.1, String.mk pp.2, s.query, s.fragment⟩
  else
    ⟨s.scheme, s.netloc, s.path, "", s.query, s.fragment⟩

/-- `urlparse(url).netloc` — the frontier's host key for a URL. -/
def netlocOf (url : String) : String :=
  (urlparseF url).netloc

/-! ## `scraper.is_trap` -/

/-- `re.search`: does the predicate match at some suffix position? -/
def searchBy (p : List Char → Bool) : List Char → Bool
  | [] => p []
  | c :: t => p (c :: t) || searchBy p t

/-- Match of `/\d{4}/\d{2}/\d{2}/` anchored at the head. -/
def dateFullAt : List Char → Bool
  | '/' :: a :: b :: c :: d :: '/' :: e :: f :: '/' :: g :: h :: '/' :: _ =>
      [a, b, c, d, e, f, g, h].all Char.isDigit
  | _ => false

/-- Match of `/\d{4}/\d{2}/` anchored at the head. -/
def dateShortAt : List Char → Bool
  | '/' :: a :: b :: c :: d :: '/' :: e :: f :: '/' :: _ =>
      [a, b, c, d, e, f].all Char.isDigit
  | _ => false

/-- Match of `from=\d{4}-\d{2}-\d{2}` anchored at the head. -/
def fromDateAt : List Char → Bool
  | 'f' :: 'r' :: 'o' :: 'm' :: '=' :: a :: b :: c :: d :: '-' :: e :: f :: '-'
      :: g :: h :: _ =>
      [a, b, c, d, e, f, g, h].all Char.isDigit
  | _ => false

/-- `re.search(r'\?do=(index|revisions|diff|backlink)', query)`: the
alternatives are literals, so this is a plain substring search. -/
def wikiActionSearch (q : String) : Bool :=
  strContains q "?do=index" || strContains q "?do=revisions" ||
    strContains q "?do=diff" || strContains q "?do=backlink"

/-- `re.search(r'precision=(second|minute|hour)', query)`. -/
def precisionSearch (q : String) : Bool :=
  strContains q "precision=second" || strContains q "precision=minute" ||
    strContains q "precision=hour"

/-- The `important_paths` whitelist of `is_trap` (source lines 365-372). -/
def importantPathsTrap : List String :=
  ["/seminars/", "/people/", "/faculty/", "/staff/",
   "/research/", "/grad/", "/phd/", "/courses/",
   "/news/", "/contact/", "/about/", "/explore/",
   "/seminar-series/", "/chairs-message/", "/what-is-statistics/",
   "/tutoring-resources/", "/m-s-ph-d-in-statistics/",
   "/grad-student-directory/", "/minor-in-statistics/"]

/-- The root paths `is_trap` whitelists. -/
def rootPaths : List String :=
  ["/", "", "/index.html", "/index.htm"]

/-- First check of `is_trap`: `'wiki' in path and "version" in query`. -/
def trapWikiVersion (path query : String) : Bool :=
  strContains path "wiki" && strContains query "version"

/-- Whitelist check: `any(path.startswith(p) for p in important_paths)`. -/
def trapImportant (path : String) : Bool :=
  importantPathsTrap.any (fun p => strStartsWith path p)

/-- Whitelist check: `path in ['/', '', '/index.html', '/index.htm']`. -/
def trapRoot (path : String) : Bool :=
  rootPaths.contains path

/-- Whitelist check: `'~' in path`. -/
def trapTilde (path : String) : Bool :=
  strContains path "~"

/-- The `any([...])` battery of trap patterns (source lines 385-406);
`rawQuery` is `parsed.query`, `path`/`query` the lowercased components. -/
def trapPatterns (rawQuery path query : String) : Bool :=
  searchBy dateFullAt path.toList
    || searchBy dateShortAt path.toList
    || decide (rawQuery.length > 100)
    || decide (countChar rawQuery '&' > 5)
    || wikiActionSearch query
    || searchBy fromDateAt query.toList
    || precisionSearch query
    || decide (countOccur query "do=" > 1)
    || decide (countOccur query "from=" > 1)

/-- `scraper.is_trap` (source lines 353-410); `path` and `query` in the
source are the lowercased components of `urlparse(url)`. -/
def is_trap (url : String) : Bool :=
  if trapWikiVersion (pyLower (urlparseF url).path) (pyLower (urlparseF url).query) then true
  else if trapImportant (pyLower (urlparseF url).path) then false
  else if trapRoot (pyLower (urlparseF url).path) then false
  else if trapTilde (pyLower (urlparseF url).path) then false
  else if trapPatterns (urlparseF url).query (pyLower (urlparseF url).path)
      (pyLower (urlparseF url).query) then true
  else false

/-! ## `scraper.is_valid` -/

/-- Net effect of `url.strip(); ' '.flatten(url.split()); url.replace(' ','')`:
every Python-whitespace character is removed. -/
def removeWS (url : String) : String :=
  String.mk (url.toList.filter (fun c => ¬ pySpace c))

/-- The allowed host-suffix domains (source lines 503-508). -/
def allowedDomains : List String :=
  ["ics.uci.edu", "cs.uci.edu", "informatics.uci.edu", "stat.uci.edu"]

/-- The `invalid_extensions` set (source lines 522-540). -/
def invalid_extensions : List String :=
  ["pdf", "doc", "docx", "ppt", "pptx", "ppsx", "xls", "xlsx", "csv",
   "txt", "rtf", "odc", "odt", "ods", "odp", "tex", "ps", "eps", "cls", "bib",
   "jpg", "jpeg", "png", "gif", "bmp", "tiff", "ico", "svg", "webp", "heic",
   "heif", "hevc", "avif", "img",
   "mp3", "mp4", "wav", "avi", "mov", "wmv", "flv", "mkv", "webm",
   "mpg", "mpeg", "m4v", "3gp", "ogg", "ogv",
   "zip", "rar", "gz", "tar", "7z", "bz2", "xz", "deb", "rpm", "msi", "apk",
   "css", "js", "json", "xml", "rss", "atom", "php", "war", "tgz",
   "exe", "dll", "so", "dmg", "iso", "bin", "swf", "woff", "woff2", "eot",
   "ttf", "fig", "ss",
   "rkt", "py", "data", "java", "hqx", "lif", "asp", "lca", "pq", "hash",
   "shar", "cp", "ma", "tif", "db",
   "cpp", "diff", "dtd", "emx", "ff", "grm", "in", "io", "lsp", "mat", "nb",
   "pov", "pps", "rle", "rls", "sas",
   "scm", "sh", "sql", "uai"]

/-- Resource-directory path fragments (source lines 549-554). -/
def resourceDirs : List String :=
  ["/images/", "/img/", "/media/",
   "/video/", "/audio/", "/download/",
   "/css/", "/js/", "/assets/", "/fonts/",
   "/static/", "/uploads/", "/files/", "/bibs/", "/publications/", "/docs/",
   "/papers/", "/pdfs/"]

/-- `re.search(r'/calendar/|/events?/|/archive/', path)`: `events?` matches
`event` or `events`. -/
def calendarSearch (path : String) : Bool :=
  strContains path "/calendar/" || strContains path "/event/" ||
    strContains path "/events/" || strContains path "/archive/"

/-- Problematic path fragments (source lines 562-567). -/
def problematicPaths : List String :=
  ["/login", "/logout", "/search", "/print/",
   "/feed", "/rss", "/atom", "/api/", "/ajax/",
   "/cgi-bin/", "/wp-content/",
   "/admin/", "/backup/", "/raw/"]

/-- Scheme membership check of `is_valid`. -/
def schemeOk (p : ParseResult) : Bool :=
  p.scheme = "http" ∨ p.scheme = "https"

/-- Allowed-domain check of `is_valid` (exact match or subdomain). -/
def domainOk (p : ParseResult) : Bool :=
  allowedDomains.any (fun d =>
    pyLower p.netloc = d ∨ strEndsWith (pyLower p.netloc) ("." ++ d))

/-- The extension filter of `is_valid`: rejects when `'.{ext}'` occurs
anywhere in the lowercased URL. -/
def extensionHit (url : String) : Bool :=
  invalid_extensions.any (fun e => strContains (pyLower url) ("." ++ e))

/-- Resource-directory rejection of `is_valid` (source lines 549-554). -/
def resourceHit (p : ParseResult) : Bool :=
  resourceDirs.any (fun x => strContains (pyLower p.path) x)

/-- Calendar/event/archive rejection of `is_valid` (source line 558). -/
def calendarHit (p : ParseResult) : Bool :=
  calendarSearch (pyLower p.path)

/-- Problematic-path rejection of `is_valid` (source lines 562-567). -/
def problematicHit (p : ParseResult) : Bool :=
  problematicPaths.any (fun x => strContains (pyLower p.path) x)

/-- All three path-based rejections of `is_valid` together. -/
def pathDisallowed (p : ParseResult) : Bool :=
  resourceHit p || calendarHit p || problematicHit p

/-- `scraper.is_valid` (source lines 484-578): whitespace removal, then
scheme, allowed-domain, extension-substring, path and length checks on
the parse of the cleaned URL.  The `try/except` wrapper is not modelled:
the embedded parser is total. -/
def is_valid (url0 : String) : Bool :=
  if ¬ schemeOk (urlparseF (removeWS url0)) then false
  else if ¬ domainOk (urlparseF (removeWS url0)) then false
  else if extensionHit (removeWS url0) then false
  else if resourceHit (urlparseF (removeWS url0)) then false
  else if calendarHit (urlparseF (removeWS url0)) then false
  else if problematicHit (urlparseF (removeWS url0)) then false
  else if (removeWS url0).length > 200 then false
  else true

/-! ## `scraper.SimHash` and `scraper.is_similar_content` -/

/-- `\w` of Python `re` (ASCII part): alphanumeric or underscore. -/
def pyWordChar (c : Char) : Bool :=
  c.isAlphanum || c = '_'

/-- One step of `re.sub(r'[^\w\s]', ' ', text)`. -/
def substChar (c : Char) : Char :=
  if ¬ (pyWordChar c ∨ pySpace c) then ' ' else c

/-- Python `str.split()`: split on whitespace runs, dropping empties. -/
def splitWS (cs : List Char) : List String :=
  ((cs.splitOnP pySpace).map String.mk).filter (fun w => w ≠ "")

/-- The tokens `SimHash._preprocess_text` counts: lowercase, replace
non-word non-space characters by spaces, split on whitespace, keep words
of length `> 2`. -/
def simTokens (text : String) : List String :=
  (splitWS ((pyLower text).toList.map substChar)).filter (fun w => w.length > 2)

/-- Insert one occurrence of a word into a frequency association list,
preserving first-occurrence order (Python dict semantics). -/
def bumpFreq : List (String × ℕ) → String → List (String × ℕ)
  | [], w => [(w, 1)]
  | (k, n) :: t, w =>
      if k = w then (k, n + 1) :: t else (k, n) :: bumpFreq t w

/-- Word frequencies of `_preprocess_text`. -/
def wordFreqs (ws : List String) : List (String × ℕ) :=
  ws.foldl bumpFreq []

/-- UTF-8 encoding of one character, as byte values. -/
def utf8Bytes (c : Char) : List ℕ :=
  let n := c.toNat
  if n < 128 then [n]
  else if n < 2048 then [192 + n / 64, 128 + n % 64]
  else if n < 65536 then [224 + n / 4096, 128 + (n / 64) % 64, 128 + n % 64]
  else [240 + n / 262144, 128 + (n / 4096) % 64, 128 + (n / 64) % 64,
        128 + n % 64]

/-- `SimHash._hash_function`: fold `h = (h * 31 + byte) mod 2^64` over the
word's UTF-8 bytes. -/
def hashWord (w : String) : ℕ :=
  ((w.toList.map utf8Bytes).flatten).foldl (fun h b => (h * 31 + b) % 2 ^ 64) 0

/-- Component `i` of the signed accumulator vector of
`SimHash._generate_hash`. -/
def simV (fs : List (String × ℕ)) (i : ℕ) : ℤ :=
  fs.foldl
    (fun acc wf =>
      if (hashWord wf.1).testBit i then acc + wf.2 else acc - wf.2) 0

/-- `SimHash._generate_hash`: the 64-bit fingerprint. -/
def simhashFingerprint (text : String) : ℕ :=
  let fs := wordFreqs (simTokens text)
  (List.range 64).foldl
    (fun acc i => if 0 < simV fs i then acc ||| (1 <<< i) else acc) 0

/-- Population count by binary recursion; the source's clear-lowest-bit
loop in `SimHash.distance` computes the same value.  Fuel-bounded for
kernel reducibility; fuel `≥ x` always suffices (each step halves). -/
def popcountAux : ℕ → ℕ → ℕ
  | 0, _ => 0
  | fuel + 1, x => if x = 0 then 0 else x % 2 + popcountAux fuel (x / 2)

def popcount (x : ℕ) : ℕ :=
  popcountAux x x

/-- `SimHash.distance`: Hamming distance of two fingerprints. -/
def simhashDistance (a b : ℕ) : ℕ :=
  popcount (a ^^^ b)

/-- The `important_paths` whitelist of `is_similar_content`
(source lines 422-426); checked by substring containment. -/
def importantPathsSim : List String :=
  ["/explore/", "/about/", "/faculty/", "/staff/",
   "/research/", "/grad/", "/phd/", "/courses/",
   "/people/", "/contact/", "/news/"]

/-- The comparison loop of `is_similar_content`: count same-domain stored
entries at distance below the threshold, declaring a duplicate at the
third.  The stored integer distance is compared against the float
threshold; `ℚ` carries the comparison exactly (for the default literal
`0.1`, `float(0.1)` and `1/10` order the naturals identically). -/
def simLoop (domain : String) (h : ℕ) (threshold : ℚ) :
    List (String × ℕ) → ℕ → Bool
  | [], _ => false
  | e :: rest, counter =>
      if netlocOf e.1 = domain ∧ ((simhashDistance h e.2 : ℚ) < threshold) then
        if counter + 1 ≥ 3 then true
        else simLoop domain h threshold rest (counter + 1)
      else simLoop domain h threshold rest counter

/-- `scraper.is_similar_content` (source lines 412-450), with the global
`content_fingerprints` window passed and returned explicitly.  The
default `threshold` argument is the literal `0.1`. -/
def is_similar_content (text url : String) (window : List (String × ℕ))
    (threshold : ℚ) : Bool × List (String × ℕ) :=
  let parsed := urlparseF url
  if strContains parsed.path "~" then (false, window)
  else if importantPathsSim.any
      (fun p => strContains (pyLower parsed.path) p) then (false, window)
  else
    let h := simhashFingerprint text
    if simLoop parsed.netloc h threshold window 0 then (true, window)
    else
      let w' := window ++ [(url, h)]
      (false, if w'.length > 1000 then w'.drop 1 else w')

/-- The default threshold of `is_similar_content`, the float literal
`0.1`, carried exactly as a rational. -/
def defaultSimThreshold : ℚ := 1 / 10

/-! ## `scraper.scraper` and the worker's add loop -/

/-- `url.split('#')[0]`. -/
def stripFragment (url : String) : String :=
  match splitFirst url.toList '#' with
  | some (pre, _) => String.mk pre
  | none => url

/-- `scraper.scraper` (source lines 121-140), with the global
`visited_urls` set passed and returned explicitly.  `extracted` stands
for the value of `extract_next_links(url, resp)`, which depends only on
the response content; quantifying over it quantifies over responses.
The `try/except` wrapper (which also returns `[]`) is not modelled: the
embedded functions are total. -/
def scraperStep (visited : List String) (url : String)
    (extracted : List String) : List String × List String :=
  let clean := stripFragment url
  if visited.contains clean then ([], visited)
  else (extracted.filter (fun l => is_valid l && ! is_trap l), clean :: visited)

/-- The worker's batching of `new_urls`
(`for i in range(0, len(new_urls), batch_size)`, `batch_size = 50`).
Fuel-bounded for kernel reducibility; every step drops at least one
element, so fuel `≥ length` suffices. -/
def workerBatchesAux : ℕ → List String → List (List String)
  | 0, _ => []
  | _ + 1, [] => []
  | fuel + 1, x :: xs => ((x :: xs).take 50) :: workerBatchesAux fuel ((x :: xs).drop 50)

def workerBatches (xs : List String) : List (List String) :=
  workerBatchesAux xs.length xs

/-- The sequence of URLs on which `Worker.run` calls
`frontier.add_url` after scraping one page (source worker.py lines
49-56): every element of every batch of the scraper's return, in order. -/
def workerAddSequence (visited : List String) (url : String)
    (extracted : List String) : List String :=
  (workerBatches (scraperStep visited url extracted).1).flatten

/-! ## Spec-modelled `utils` helpers

The `utils` package (`normalize`, `get_urlhash`) is not under `src/`;
these are modelled from the spec. -/

/-- Collapse runs of `/` to a single `/`: a `/` followed by another `/`
is dropped. -/
def collapseSlashes : List Char → List Char
  | [] => []
  | [c] => [c]
  | c :: d :: t =>
      if c = '/' ∧ d = '/' then collapseSlashes (d :: t)
      else c :: collapseSlashes (d :: t)

/-- Modelled from the spec: `utils.normalize` — "lowercase scheme and
host, strip fragment, collapse repeated slashes in path, remove trailing
whitespace" (§4.1).  The query is kept, the fragment dropped, the scheme
lowercased by the parser. -/
def normalize (url : String) : String :=
  let u := String.mk ((url.toList.reverse.dropWhile pySpace).reverse)
  let s := urlsplitF u
  (if s.scheme ≠ "" then s.scheme ++ ":" else "") ++
    (if s.netloc ≠ "" then "//" ++ pyLower s.netloc else "") ++
    String.mk (collapseSlashes s.path.toList) ++
    (if s.query ≠ "" then "?" ++ s.query else "")

/-- Modelled from the spec: `utils.get_urlhash` — the spec's stable
128-bit fingerprint of the canonical URL (§3).  The model uses the
canonical URL string itself as its own fingerprint, an injective
stand-in for the hash. -/
def get_urlhash (url : String) : String := url

/-! ## `crawler.frontier.Frontier`

State machine embedding.  Python dicts become insertion-ordered
association lists (update in place, new keys appended), Python sets
membership-managed lists.  Each call of `get_tbd_url` reads the clock
twice (`time.time()` at entry and again under the domain lock); the two
readings are the `t`, `t'` parameters. -/

/-- Dict lookup on an insertion-ordered association list. -/
def alookup {α : Type} : List (String × α) → String → Option α
  | [], _ => none
  | (k', v) :: t, k => if k' = k then some v else alookup t k

/-- Dict store: update in place, append new keys at the end. -/
def aset {α : Type} : List (String × α) → String → α → List (String × α)
  | [], k, v => [(k, v)]
  | (k', v') :: t, k, v =>
      if k' = k then (k, v) :: t else (k', v') :: aset t k v

/-- `defaultdict` read of a per-domain queue. -/
def qget (qs : List (String × List String)) (d : String) : List String :=
  (alookup qs d).getD []

/-- `self.domain_queues[domain].append(url)`. -/
def appendQ (qs : List (String × List String)) (d u : String) :
    List (String × List String) :=
  aset qs d (qget qs d ++ [u])

structure FState where
  queues : List (String × List String)
  priorities : List (String × ℤ)
  lastCheck : List (String × ℤ)
  inProgress : List String
  domInProgress : List (String × List String)
  save : List (String × String × Bool)
  deriving Repr, DecidableEq

def emptyFState : FState := ⟨[], [], [], [], [], []⟩

/-- The domain-selection scan of `get_tbd_url` (source lines 53-75):
skip empty queues, skip domains checked within `time_delay / 2`,
remember the domain of strictly smallest wait time. -/
def selectScan (delay t : ℤ) (lastCheck priorities : List (String × ℤ)) :
    List (String × List String) → Option (String × ℤ) → Option (String × ℤ)
  | [], best => best
  | (d, urls) :: rest, best =>
      if urls = [] then selectScan delay t lastCheck priorities rest best
      else if (match alookup lastCheck d with
               | some lc => decide (2 * (t - lc) < delay)
               | none => false) then
        -- `current_time - last < time_delay / 2` with the float division
        -- cleared: over integer times, `t - lc < delay/2 ↔ 2*(t - lc) < delay`.
        selectScan delay t lastCheck priorities rest best
      else
        let w : ℤ := match alookup priorities d with
                     | some p => max 0 (p - t)
                     | none => 0
        if (match best with
            | none => true
            | some b => decide (w < b.2)) then
          selectScan delay t lastCheck priorities rest (some (d, w))
        else selectScan delay t lastCheck priorities rest best

def selectDomain (delay t : ℤ) (s : FState) : Option String :=
  (selectScan delay t s.lastCheck s.priorities s.queues none).map (fun b => b.1)

/-- The inner URL scan of `get_tbd_url` (source lines 85-92): first
queued URL not in `global_in_progress`, removed from the queue. -/
def pickUrl (ip : List String) : List String → Option (String × List String)
  | [] => none
  | u :: rest =>
      if ip.contains u then
        match pickUrl ip rest with
        | some (w, rest') => some (w, u :: rest')
        | none => none
      else some (u, rest)

/-- `Frontier.get_tbd_url` (source lines 48-102), also reporting the
domain and dispense time of a successful call.  `t` is the first clock
reading, `t'` the re-read under the domain lock.  The Python truthiness
test `if not next_domain` also rejects an empty-string domain. -/
def get_tbd_url_aux (delay : ℤ) (s : FState) (t t' : ℤ) :
    FState × Option (String × String × ℤ) :=
  match selectDomain delay t s with
  | none => (s, none)
  | some d =>
      if d = "" then (s, none)
      else if t' < (alookup s.priorities d).getD 0 then (s, none)
      else
        match pickUrl s.inProgress (qget s.queues d) with
        | none => (s, none)
        | some (u, q') =>
            ({ s with
               queues := aset s.queues d q',
               inProgress := s.inProgress.insert u,
               domInProgress := aset s.domInProgress d
                 (((alookup s.domInProgress d).getD []).insert u),
               priorities := aset s.priorities d (t' + delay),
               lastCheck := aset s.lastCheck d t' }, some (d, u, t'))

/-- `Frontier.get_tbd_url`: the URL handed to the worker. -/
def get_tbd_url (delay : ℤ) (s : FState) (t t' : ℤ) : FState × Option String :=
  let r := get_tbd_url_aux delay s t t'
  (r.1, r.2.map (fun x => x.2.1))

/-- `Frontier.add_url` (source lines 104-120). -/
def add_url (s : FState) (url0 : String) : FState :=
  if url0 = "" then s
  else
    let url := normalize url0
    if ¬ is_valid url then s
    else
      match alookup s.save (get_urlhash url) with
      | some _ => s
      | none =>
          { s with
            save := aset s.save (get_urlhash url) (url, false),
            queues := appendQ s.queues (netlocOf url) url }

/-- `Frontier.mark_url_complete` (source lines 122-143). -/
def mark_url_complete (s : FState) (url : String) : FState :=
  if url = "" then s
  else
    let d := netlocOf url
    let s1 : FState :=
      { s with
        inProgress := s.inProgress.filter (fun u => u ≠ url),
        domInProgress := aset s.domInProgress d
          (((alookup s.domInProgress d).getD []).filter (fun u => u ≠ url)) }
    match alookup s.save (get_urlhash url) with
    | none => s1
    | some _ => { s1 with save := aset s1.save (get_urlhash url) (url, true) }

/-- The queue-building loop of `Frontier._load_save_file`
(source lines 151-156). -/
def loadQueues : List (String × String × Bool) →
    List (String × List String) → List (String × List String)
  | [], qs => qs
  | (_, url, completed) :: rest, qs =>
      if !completed && is_valid url then
        loadQueues rest (appendQ qs (netlocOf url) url)
      else loadQueues rest qs

/-- `Frontier.__init__` (source lines 11-46): with `restart` the save
file is deleted and the seeds added; otherwise the save file is loaded
and, when it is empty, the seeds added. -/
def initFrontier (restart : Bool) (save0 : List (String × String × Bool))
    (seeds : List String) : FState :=
  if restart then seeds.foldl add_url emptyFState
  else
    let s1 : FState := { emptyFState with save := save0,
                                          queues := loadQueues save0 [] }
    if save0 = [] then seeds.foldl add_url s1 else s1

/-- One frontier call.  `next t t'` carries the two clock readings of
`get_tbd_url`. -/
inductive FEvent where
  | add (url : String)
  | next (t t' : ℤ)
  | complete (url : String)
  deriving Repr, DecidableEq

/-- One step; a successful `next` emits the dispense record
`(domain, url, dispense time)`. -/
def stepF (delay : ℤ) (s : FState) : FEvent → FState × Option (String × String × ℤ)
  | .add url => (add_url s url, none)
  | .next t t' => get_tbd_url_aux delay s t t'
  | .complete url => (mark_url_complete s url, none)

/-- Run a call sequence, collecting the dispense records in order. -/
def execF (delay : ℤ) (s : FState) : List FEvent → FState × List (String × String × ℤ)
  | [] => (s, [])
  | e :: tr =>
      let r := stepF delay s e
      let rest := execF delay r.1 tr
      (rest.1, r.2.toList ++ rest.2)

/-- The URLs dispensed along a run. -/
def dispensedUrls (delay : ℤ) (s : FState) (tr : List FEvent) : List String :=
  (execF delay s tr).2.map (fun r => r.2.1)

/-- All URLs presently queued, across the host queues. -/
def allQueued (s : FState) : List String :=
  (s.queues.map (fun q => q.2)).flatten

/-! ## Claim C6 — wiki-style action queries and `is_trap` -/

/-- The claim's premise in the spec's words: the query matches one of the
wiki-style action patterns `do=index|revisions|diff|backlink`. -/
def specWikiActionQuery (q : String) : Bool :=
  strContains q "do=index" || strContains q "do=revisions" ||
    strContains q "do=diff" || strContains q "do=backlink"

/-- Claim C6: for the non-whitelisted URL `http://ics.uci.edu/page?do=index`,
whose query matches the wiki-style action pattern `do=index`, `is_trap`
nevertheless returns `false`: the source's regex `\?do=(...)` is searched in
the query component, which does not contain the leading `?`, so the check
never fires on such URLs.  This refutes the claim that every such URL is a
trap. -/
theorem wiki_action_query_not_trapped :
    specWikiActionQuery (pyLower (urlparseF "http://ics.uci.edu/page?do=index").query) = true ∧
    trapImportant (pyLower (urlparseF "http://ics.uci.edu/page?do=index").path) = false ∧
    trapRoot (pyLower (urlparseF "http://ics.uci.edu/page?do=index").path) = false ∧
    trapTilde (pyLower (urlparseF "http://ics.uci.edu/page?do=index").path) = false ∧
    is_trap "http://ics.uci.edu/page?do=index" = false := by
  decide

/-! ## Claim C7 — `is_trap` whitelist -/

/-- Claim C7 counterexample: `http://ics.uci.edu/people/wiki?version=1` has a
whitelisted important-path prefix (`/people/`), yet `is_trap` returns `true`:
the `'wiki' in path and 'version' in query` check precedes the whitelist. -/
theorem trap_whitelist_override_cex :
    trapImportant (pyLower (urlparseF "http://ics.uci.edu/people/wiki?version=1").path) = true ∧
    is_trap "http://ics.uci.edu/people/wiki?version=1" = true := by
  decide

/-- Claim C7 as amended: a URL whose lowercased path is whitelisted (important
prefix, root path, or tilde-user page) is not a trap, regardless of its query,
unless the path contains `wiki` while the query contains `version` — that
check precedes the whitelist in the source. -/
theorem trap_whitelist_amended (url : String)
    (hwv : trapWikiVersion (pyLower (urlparseF url).path)
      (pyLower (urlparseF url).query) = false)
    (hwl : trapImportant (pyLower (urlparseF url).path) = true ∨
           trapRoot (pyLower (urlparseF url).path) = true ∨
           trapTilde (pyLower (urlparseF url).path) = true) :
    is_trap url = false := by
  simp only [is_trap, hwv]
  rcases hwl with h | h | h
  · simp [h]
  · cases hI : trapImportant (pyLower (urlparseF url).path) <;> simp [h]
  · cases hI : trapImportant (pyLower (urlparseF url).path) <;>
      cases hR : trapRoot (pyLower (urlparseF url).path) <;> simp [h]

/-- Witness for `trap_whitelist_amended` at `http://ics.uci.edu/people/`. -/
theorem trap_whitelist_amended_witness :
    trapWikiVersion (pyLower (urlparseF "http://ics.uci.edu/people/").path)
      (pyLower (urlparseF "http://ics.uci.edu/people/").query) = false ∧
    trapImportant (pyLower (urlparseF "http://ics.uci.edu/people/").path) = true ∧
    is_trap "http://ics.uci.edu/people/" = false :=
  ⟨by decide, by decide,
    trap_whitelist_amended "http://ics.uci.edu/people/" (by decide)
      (Or.inl (by decide))⟩

/-! ## Claim C8 — extension filtering in `is_valid` -/

/-- The claim's reading of the extension check, in the spec's words: the
final extension of the path, i.e. what follows the last `.` of the last
`/`-separated segment, if any. -/
def specFinalExt (path : String) : Option String :=
  let seg := match rfindChar path.toList '/' with
             | some i => path.toList.drop (i + 1)
             | none => path.toList
  match rfindChar seg '.' with
  | some j => some (String.mk (seg.drop (j + 1)))
  | none => none

/-- Claim C8 counterexample: `http://ics.uci.edu/my.data/info` satisfies the
scheme, allowed-domain, path-segment and length conditions and its path has
no final extension at all, yet `is_valid` returns `false`: the source
rejects on the substring `.data` anywhere in the URL, not on the final
extension. -/
theorem is_valid_final_extension_cex :
    schemeOk (urlparseF (removeWS "http://ics.uci.edu/my.data/info")) = true ∧
    domainOk (urlparseF (removeWS "http://ics.uci.edu/my.data/info")) = true ∧
    pathDisallowed (urlparseF (removeWS "http://ics.uci.edu/my.data/info")) = false ∧
    (removeWS "http://ics.uci.edu/my.data/info").length ≤ 200 ∧
    specFinalExt (urlparseF (removeWS "http://ics.uci.edu/my.data/info")).path = none ∧
    is_valid "http://ics.uci.edu/my.data/info" = false := by
  decide

/-- Claim C8 as amended: `is_valid` rejects on extension grounds by substring:
a URL satisfying the scheme, allowed-domain, path-segment and length
conditions is valid iff no `.{ext}` for `ext` in the disallowed set occurs
anywhere in the lowercased whitespace-cleaned URL. -/
theorem is_valid_accepts_amended (url : String)
    (h1 : schemeOk (urlparseF (removeWS url)) = true)
    (h2 : domainOk (urlparseF (removeWS url)) = true)
    (h3 : extensionHit (removeWS url) = false)
    (h4 : pathDisallowed (urlparseF (removeWS url)) = false)
    (h5 : (removeWS url).length ≤ 200) :
    is_valid url = true := by
  have hparts := h4
  simp only [pathDisallowed, Bool.or_eq_false_iff] at hparts
  obtain ⟨⟨hr, hc⟩, hp⟩ := hparts
  simp only [is_valid, h1, h2, h3, hr, hc, hp]
  simp [Nat.not_lt.mpr h5]

/-- Witness for `is_valid_accepts_amended` at `http://www.ics.uci.edu/about`. -/
theorem is_valid_accepts_amended_witness :
    extensionHit (removeWS "http://www.ics.uci.edu/about") = false ∧
    is_valid "http://www.ics.uci.edu/about" = true :=
  ⟨by decide,
    is_valid_accepts_amended "http://www.ics.uci.edu/about"
      (by decide) (by decide) (by decide) (by decide) (by decide)⟩

/-! ## Claim C10 — the scraper is single-shot per fragment-stripped URL -/

/-- Claim C10: `scraper` records the fragment-stripped URL of every call in
the `visited_urls` set, never removes entries, and returns the empty link
list on any call whose fragment-stripped URL was already recorded —
regardless of the links the response would yield. -/
theorem scraper_single_shot (visited : List String) (url : String)
    (extracted : List String) :
    stripFragment url ∈ (scraperStep visited url extracted).2 ∧
    (∀ v ∈ visited, v ∈ (scraperStep visited url extracted).2) ∧
    (stripFragment url ∈ visited → (scraperStep visited url extracted).1 = []) := by
  by_cases h : visited.contains (stripFragment url) = true
  · simp only [scraperStep, h, if_true]
    exact ⟨by simpa using h, fun v hv => hv, fun _ => trivial⟩
  · simp only [scraperStep, h]
    refine ⟨List.mem_cons_self _ _, fun v hv => List.mem_cons_of_mem _ hv, fun hm => ?_⟩
    exact absurd (by simpa using hm) h

/-- Witness for `scraper_single_shot`: a second call on a URL differing only
in its fragment returns no links. -/
theorem scraper_single_shot_witness :
    stripFragment "http://ics.uci.edu/p#sec" ∈ ["http://ics.uci.edu/p"] ∧
    (scraperStep ["http://ics.uci.edu/p"] "http://ics.uci.edu/p#sec"
      ["http://ics.uci.edu/people/"]).1 = [] :=
  ⟨by decide,
    (scraper_single_shot ["http://ics.uci.edu/p"] "http://ics.uci.edu/p#sec"
      ["http://ics.uci.edu/people/"]).2.2 (by decide)⟩

/-! ## Claim C5 — the worker never consults the robots policy -/

/-- A robots `can_fetch` policy (the robots cache is an external
collaborator) that disallows every URL; used to exhibit that the links the
worker adds do not depend on any robots policy. -/
def robotsDisallowAll : String → Bool := fun _ => false

/-- Claim C5 counterexample: the worker's add loop passes
`http://ics.uci.edu/people/` to `frontier.add_url` even though the host's
robots policy (here: disallow-all) forbids it — neither `Worker.run` nor
`scraper.scraper` ever calls `is_allowed_by_robots`. -/
theorem worker_adds_robots_disallowed_cex :
    robotsDisallowAll "http://ics.uci.edu/people/" = false ∧
    "http://ics.uci.edu/people/" ∈
      workerAddSequence [] "http://ics.uci.edu/page" ["http://ics.uci.edu/people/"] := by
  decide

/-- Claim C5 as amended: the worker calls `frontier.add_url` exactly on the
links returned by `scraper` — the batching loop flattens back to the
scraper's return — and every such link passes `is_valid` and fails
`is_trap`; no robots check is involved anywhere on this path. -/
theorem worker_add_filter (visited : List String) (url : String)
    (extracted : List String) :
    workerAddSequence visited url extracted = (scraperStep visited url extracted).1 ∧
    (∀ l, l ∈ workerAddSequence visited url extracted →
      is_valid l = true ∧ is_trap l = false) := by
  have hflat : ∀ (n : ℕ) (xs : List String), xs.length ≤ n →
      (workerBatchesAux n xs).flatten = xs := by
    intro n
    induction n with
    | zero =>
        intro xs hx
        rw [List.length_eq_zero.mp (Nat.le_zero.mp hx)]
        rfl
    | succ n ih =>
        intro xs hx
        match xs with
        | [] => rfl
        | x :: t =>
            simp only [workerBatchesAux, List.flatten_cons]
            rw [ih ((x :: t).drop 50) (by simp [List.length_drop] at hx ⊢; omega)]
            exact List.take_append_drop _ _
  have h1 : workerAddSequence visited url extracted =
      (scraperStep visited url extracted).1 := by
    unfold workerAddSequence workerBatches
    exact hflat _ _ le_rfl
  refine ⟨h1, fun l hl => ?_⟩
  rw [h1] at hl
  simp only [scraperStep] at hl
  split at hl
  · simp at hl
  · simp only [List.mem_filter, Bool.and_eq_true, Bool.not_eq_true'] at hl
    exact ⟨hl.2.1, hl.2.2⟩

/-- Witness for `worker_add_filter` on a concrete page. -/
theorem worker_add_filter_witness :
    workerAddSequence [] "http://ics.uci.edu/page"
        ["http://ics.uci.edu/people/", "http://example.com/"] =
      (scraperStep [] "http://ics.uci.edu/page"
        ["http://ics.uci.edu/people/", "http://example.com/"]).1 ∧
    is_valid "http://ics.uci.edu/people/" = true ∧
    is_trap "http://ics.uci.edu/people/" = false := by
  refine ⟨(worker_add_filter [] "http://ics.uci.edu/page" _).1, ?_⟩
  exact (worker_add_filter [] "http://ics.uci.edu/page"
    ["http://ics.uci.edu/people/", "http://example.com/"]).2
    "http://ics.uci.edu/people/" (by decide)

/-! ## Claim C2 — outstanding requests are tracked per URL, not per host -/

/-- The URL the inner scan of `get_tbd_url` picks is not in
`global_in_progress`. -/
theorem pickUrl_not_mem {ip : List String} :
    ∀ {q : List String} {u : String} {q' : List String},
      pickUrl ip q = some (u, q') → ip.contains u = false := by
  intro q
  induction q with
  | nil => intro u q' h; exact absurd h (by simp [pickUrl])
  | cons x t ih =>
      intro u q' h
      unfold pickUrl at h
      by_cases hx : ip.contains x = true
      · rw [if_pos hx] at h
        cases hp : pickUrl ip t with
        | none => rw [hp] at h; exact absurd h (by simp)
        | some p =>
            rw [hp] at h
            cases p with
            | mk w rest =>
                injection h with h1
                injection h1 with hu _
                subst hu
                exact ih hp
      · rw [if_neg hx] at h
        injection h with h1
        injection h1 with hu _
        subst hu
        exact Bool.not_eq_true _ ▸ eq_false_of_ne_true hx

/-- Claim C2 counterexample: with `time_delay = 1`, seed URLs `a`, `b` of the
same host, dispense `a` at time `0` and do not complete it; at time `1` the
frontier dispenses `b` of the same host while `a` is still outstanding —
`get_tbd_url` gates on the per-host delay only, never on
`domain_in_progress`. -/
theorem second_outstanding_same_host_cex :
    "http://ics.uci.edu/a" ∈
      ((execF 1 (initFrontier true []
        ["http://ics.uci.edu/a", "http://ics.uci.edu/b"])
        [FEvent.next 0 0]).1).inProgress ∧
    netlocOf "http://ics.uci.edu/b" = netlocOf "http://ics.uci.edu/a" ∧
    (get_tbd_url 1 ((execF 1 (initFrontier true []
        ["http://ics.uci.edu/a", "http://ics.uci.edu/b"])
        [FEvent.next 0 0]).1) 1 1).2 = some "http://ics.uci.edu/b" := by
  decide

/-- Claim C2 as amended: `get_tbd_url` never returns a URL that is itself in
the `global_in_progress` set — the outstanding-request exclusion is per URL;
a host whose politeness delay has elapsed may acquire a second outstanding
URL (see the counterexample). -/
theorem next_url_not_outstanding (delay : ℤ) (s : FState) (t t' : ℤ)
    (s' : FState) (d u : String) (τ : ℤ)
    (h : get_tbd_url_aux delay s t t' = (s', some (d, u, τ))) :
    u ∉ s.inProgress := by
  unfold get_tbd_url_aux at h
  cases hsel : selectDomain delay t s with
  | none => rw [hsel] at h; exact absurd h (by simp)
  | some d0 =>
      rw [hsel] at h
      dsimp only at h
      split_ifs at h with h1 h2
      · exact absurd h (by simp)
      · exact absurd h (by simp)
      · cases hpick : pickUrl s.inProgress (qget s.queues d0) with
        | none => rw [hpick] at h; exact absurd h (by simp)
        | some p =>
            rw [hpick] at h
            cases p with
            | mk w rest =>
                injection h with _ h2
                injection h2 with h3
                have hw : u = w := by
                  have := congrArg (fun x => x.2.1) h3
                  simpa using this.symm
                subst hw
                have hcontains := pickUrl_not_mem hpick
                intro hmem
                have : s.inProgress.contains u = true := by simpa using hmem
                rw [hcontains] at this
                exact Bool.false_ne_true this

/-- Witness for `next_url_not_outstanding` on a concrete dispense. -/
theorem next_url_not_outstanding_witness :
    "http://ics.uci.edu/a" ∉
      (initFrontier true [] ["http://ics.uci.edu/a"]).inProgress :=
  next_url_not_outstanding 1 (initFrontier true [] ["http://ics.uci.edu/a"])
    0 0
    ((get_tbd_url_aux 1 (initFrontier true [] ["http://ics.uci.edu/a"]) 0 0).1)
    "ics.uci.edu" "http://ics.uci.edu/a" 0 (by decide)

/-! ## Claim C9 — the near-duplicate threshold is the float `0.1` -/

/-- An integer Hamming distance is below the literal `0.1` iff it is zero. -/
theorem cast_lt_tenth (d : ℕ) : ((d : ℚ) < defaultSimThreshold) ↔ d = 0 := by
  unfold defaultSimThreshold
  constructor
  · intro hlt
    by_contra hne
    have h1 : (1 : ℚ) ≤ (d : ℚ) := by exact_mod_cast Nat.one_le_iff_ne_zero.mpr hne
    linarith
  · rintro rfl
    norm_num

/-- The comparison loop of `is_similar_content` declares a duplicate iff the
counter plus the number of same-host entries below the threshold reaches 3. -/
theorem simLoop_true_iff (dom : String) (h : ℕ) (thr : ℚ) :
    ∀ (w : List (String × ℕ)) (c : ℕ), c < 3 →
      (simLoop dom h thr w c = true ↔
        3 ≤ c + (w.filter (fun e => decide (netlocOf e.1 = dom) &&
          decide ((simhashDistance h e.2 : ℚ) < thr))).length) := by
  intro w
  induction w with
  | nil =>
      intro c hc
      simp [simLoop]
      omega
  | cons e rest ih =>
      intro c hc
      by_cases hm : netlocOf e.1 = dom ∧ ((simhashDistance h e.2 : ℚ) < thr)
      · have hpred : (decide (netlocOf e.1 = dom) &&
            decide ((simhashDistance h e.2 : ℚ) < thr)) = true := by
          simp [hm.1, hm.2]
        simp only [simLoop, if_pos hm, List.filter_cons, hpred, if_true,
          List.length_cons]
        by_cases h3 : c + 1 ≥ 3
        · rw [if_pos h3]
          simp only [true_iff]
          omega
        · rw [if_neg h3, ih (c + 1) (by omega)]
          omega
      · have hpred : (decide (netlocOf e.1 = dom) &&
            decide ((simhashDistance h e.2 : ℚ) < thr)) = false := by
          rcases not_and_or.mp hm with hx | hx <;> simp [hx]
        simp only [simLoop, if_neg hm, List.filter_cons, hpred]
        simp only [Bool.false_eq_true, if_false]
        exact ih c hc

/-- `is_similar_content` declares a duplicate iff the URL is not whitelisted
and at least 3 stored same-host entries have distance below the threshold. -/
theorem is_similar_true_iff (text url : String) (window : List (String × ℕ))
    (thr : ℚ) :
    (is_similar_content text url window thr).1 = true ↔
      (strContains (urlparseF url).path "~" = false ∧
       importantPathsSim.any
         (fun p => strContains (pyLower (urlparseF url).path) p) = false ∧
       3 ≤ (window.filter (fun e =>
         decide (netlocOf e.1 = (urlparseF url).netloc) &&
         decide ((simhashDistance (simhashFingerprint text) e.2 : ℚ) < thr))).length) := by
  by_cases h1 : strContains (urlparseF url).path "~" = true
  · simp [is_similar_content, h1]
  · have h1' := eq_false_of_ne_true h1
    by_cases h2 : importantPathsSim.any
        (fun p => strContains (pyLower (urlparseF url).path) p) = true
    · simp [is_similar_content, h1', h2]
    · have h2' := eq_false_of_ne_true h2
      simp only [is_similar_content, h1', h2', Bool.false_eq_true, if_false,
        h1, h2]
      by_cases hloop : simLoop (urlparseF url).netloc (simhashFingerprint text)
          thr window 0 = true
      · rw [if_pos hloop]
        have := (simLoop_true_iff (urlparseF url).netloc
          (simhashFingerprint text) thr window 0 (by omega)).mp hloop
        simpa using this
      · rw [if_neg hloop]
        have hnot := (simLoop_true_iff (urlparseF url).netloc
          (simhashFingerprint text) thr window 0 (by omega)).not.mp hloop
        simp only [Nat.zero_add] at hnot
        simpa using hnot

/-- Claim C9 counterexample: three stored same-host entries at Hamming
distance 1 (< 3, the claimed default threshold) from the page's fingerprint
do not make `is_similar_content` declare a near-duplicate: its default
threshold is the float literal `0.1`, so only distance-0 entries count. -/
theorem near_dup_three_close_entries_cex :
    strContains (urlparseF "http://ics.uci.edu/y").path "~" = false ∧
    importantPathsSim.any (fun p =>
      strContains (pyLower (urlparseF "http://ics.uci.edu/y").path) p) = false ∧
    3 ≤ ([("http://ics.uci.edu/x1", simhashFingerprint "aaa bbb ccc ddd" ^^^ 1),
           ("http://ics.uci.edu/x2", simhashFingerprint "aaa bbb ccc ddd" ^^^ 1),
           ("http://ics.uci.edu/x3", simhashFingerprint "aaa bbb ccc ddd" ^^^ 1)].filter
        (fun e => decide (netlocOf e.1 = (urlparseF "http://ics.uci.edu/y").netloc) &&
          decide (simhashDistance (simhashFingerprint "aaa bbb ccc ddd") e.2 < 3))).length ∧
    (is_similar_content "aaa bbb ccc ddd" "http://ics.uci.edu/y"
        [("http://ics.uci.edu/x1", simhashFingerprint "aaa bbb ccc ddd" ^^^ 1),
         ("http://ics.uci.edu/x2", simhashFingerprint "aaa bbb ccc ddd" ^^^ 1),
         ("http://ics.uci.edu/x3", simhashFingerprint "aaa bbb ccc ddd" ^^^ 1)]
        defaultSimThreshold).1 = false := by
  refine ⟨by decide, by decide, by decide, ?_⟩
  rw [Bool.eq_false_iff]
  intro htrue
  have h3 := (is_similar_true_iff "aaa bbb ccc ddd" "http://ics.uci.edu/y" _
    defaultSimThreshold).mp htrue
  have hd : simhashDistance (simhashFingerprint "aaa bbb ccc ddd")
      (simhashFingerprint "aaa bbb ccc ddd" ^^^ 1) = 1 := by decide
  have hpred : ∀ u : String,
      (decide (netlocOf u = (urlparseF "http://ics.uci.edu/y").netloc) &&
        decide ((simhashDistance (simhashFingerprint "aaa bbb ccc ddd")
          (simhashFingerprint "aaa bbb ccc ddd" ^^^ 1) : ℚ) < defaultSimThreshold)) = false := by
    intro u
    have : ¬ ((simhashDistance (simhashFingerprint "aaa bbb ccc ddd")
        (simhashFingerprint "aaa bbb ccc ddd" ^^^ 1) : ℚ) < defaultSimThreshold) := by
      rw [hd]
      rw [cast_lt_tenth]
      omega
    simp [this]
  simp only [List.filter_cons, List.filter_nil, hpred, Bool.false_eq_true,
    if_false, List.length_nil] at h3
  omega

/-- Claim C9 as amended: `is_similar_content` declares a near-duplicate iff,
after the tilde and important-path whitelist short-circuits, at least 3
stored sliding-window entries of the same host have Hamming distance
strictly below the default threshold — which is the float literal `0.1`,
not 3 bits, so only entries with distance 0 (identical fingerprints)
count. -/
theorem near_dup_iff_identical_fingerprints (text url : String)
    (window : List (String × ℕ)) :
    (is_similar_content text url window defaultSimThreshold).1 = true ↔
      (strContains (urlparseF url).path "~" = false ∧
       importantPathsSim.any
         (fun p => strContains (pyLower (urlparseF url).path) p) = false ∧
       3 ≤ (window.filter (fun e =>
         decide (netlocOf e.1 = (urlparseF url).netloc) &&
         decide (simhashDistance (simhashFingerprint text) e.2 = 0))).length) := by
  rw [is_similar_true_iff]
  have hfil : window.filter (fun e =>
      decide (netlocOf e.1 = (urlparseF url).netloc) &&
      decide ((simhashDistance (simhashFingerprint text) e.2 : ℚ) < defaultSimThreshold)) =
      window.filter (fun e =>
      decide (netlocOf e.1 = (urlparseF url).netloc) &&
      decide (simhashDistance (simhashFingerprint text) e.2 = 0)) := by
    apply List.filter_congr
    intro e _
    congr 1
    exact decide_eq_decide.mpr (cast_lt_tenth _)
  rw [hfil]

/-! ## Association-list and frontier-step lemmas -/

theorem alookup_aset_self {α : Type} (l : List (String × α)) (k : String) (v : α) :
    alookup (aset l k v) k = some v := by
  induction l with
  | nil => simp [aset, alookup]
  | cons e t ih =>
      by_cases h : e.1 = k
      · simp [aset, alookup, h]
      · simp only [aset]
        cases e with
        | mk k' v' =>
            simp only at h
            rw [if_neg h]
            simp only [alookup, if_neg h]
            exact ih

theorem alookup_aset_ne {α : Type} (l : List (String × α)) (k k' : String) (v : α)
    (h : k ≠ k') : alookup (aset l k v) k' = alookup l k' := by
  induction l with
  | nil => simp [aset, alookup, h]
  | cons e t ih =>
      cases e with
      | mk k0 v0 =>
          by_cases h0 : k0 = k
          · simp only [aset, if_pos h0, alookup]
            rw [if_neg h, if_neg (h0 ▸ h)]
          · simp only [aset, if_neg h0, alookup]
            by_cases h1 : k0 = k'
            · rw [if_pos h1, if_pos h1]
            · rw [if_neg h1, if_neg h1]
              exact ih

theorem add_url_priorities (s : FState) (u : String) :
    (add_url s u).priorities = s.priorities := by
  unfold add_url
  split
  · rfl
  · dsimp only
    split
    · rfl
    · split <;> rfl

theorem mark_url_complete_priorities (s : FState) (u : String) :
    (mark_url_complete s u).priorities = s.priorities := by
  unfold mark_url_complete
  split
  · rfl
  · split <;> rfl

/-- A `get_tbd_url` call that dispenses nothing leaves the state unchanged. -/
theorem next_none_state (delay : ℤ) (s : FState) (t t' : ℤ) (s' : FState)
    (h : get_tbd_url_aux delay s t t' = (s', none)) : s' = s := by
  unfold get_tbd_url_aux at h
  cases hsel : selectDomain delay t s with
  | none =>
      rw [hsel] at h
      injection h with h1 _
      exact h1.symm
  | some d0 =>
      rw [hsel] at h
      dsimp only at h
      split_ifs at h with h1 h2
      · injection h with h1 _; exact h1.symm
      · injection h with h1 _; exact h1.symm
      · cases hpick : pickUrl s.inProgress (qget s.queues d0) with
        | none =>
            rw [hpick] at h
            injection h with h1 _
            exact h1.symm
        | some p =>
            rw [hpick] at h
            cases p with
            | mk w rest =>
                injection h with _ hbad
                exact absurd hbad (by simp)

/-- Inversion of a successful `get_tbd_url` call. -/
theorem next_some_inv (delay : ℤ) (s : FState) (t t' : ℤ) (s' : FState)
    (d u : String) (τ : ℤ)
    (h : get_tbd_url_aux delay s t t' = (s', some (d, u, τ))) :
    τ = t' ∧ (∀ p, alookup s.priorities d = some p → p ≤ t') ∧
    ∃ q', pickUrl s.inProgress (qget s.queues d) = some (u, q') ∧
      s' = { queues := aset s.queues d q',
             priorities := aset s.priorities d (t' + delay),
             lastCheck := aset s.lastCheck d t',
             inProgress := s.inProgress.insert u,
             domInProgress := aset s.domInProgress d
               (((alookup s.domInProgress d).getD []).insert u),
             save := s.save } := by
  unfold get_tbd_url_aux at h
  cases hsel : selectDomain delay t s with
  | none =>
      rw [hsel] at h
      exact absurd h (by simp)
  | some d0 =>
      rw [hsel] at h
      dsimp only at h
      split_ifs at h with h1 h2
      · exact absurd h (by simp)
      · exact absurd h (by simp)
      · cases hpick : pickUrl s.inProgress (qget s.queues d0) with
        | none => rw [hpick] at h; exact absurd h (by simp)
        | some p =>
            rw [hpick] at h
            cases p with
            | mk w rest =>
                injection h with hst hsome
                injection hsome with htup
                have hd : d0 = d := congrArg (fun x => x.1) htup
                have hu : w = u := by
                  have := congrArg (fun x => x.2.1) htup
                  simpa using this
                have ht : t' = τ := by
                  have := congrArg (fun x => x.2.2) htup
                  simpa using this
                subst hd hu
                refine ⟨ht.symm, ?_, rest, hpick, hst.symm⟩
                intro p hp
                rw [not_lt] at h2
                rw [hp] at h2
                exact h2

/-- One unfolding of `execF`. -/
theorem execF_cons (delay : ℤ) (s : FState) (e : FEvent) (tr : List FEvent) :
    execF delay s (e :: tr) =
      ((execF delay (stepF delay s e).1 tr).1,
       (stepF delay s e).2.toList ++ (execF delay (stepF delay s e).1 tr).2) := rfl

/-! ## Claim C1 — per-host politeness gap -/

/-- Invariant carried along a run: the per-host dispense log is politely
spaced, and its first entry, if any, is not earlier than the host's
current priority. -/
theorem exec_polite (delay : ℤ) :
    ∀ (tr : List FEvent) (s : FState) (d : String),
      List.Chain' (fun a b => a.2.2 + delay ≤ b.2.2)
        (((execF delay s tr).2).filter (fun r => decide (r.1 = d))) ∧
      (∀ r ∈ ((((execF delay s tr).2).filter (fun r => decide (r.1 = d))).head?),
        ∀ p, alookup s.priorities d = some p → p ≤ r.2.2) := by
  intro tr
  induction tr with
  | nil =>
      intro s d
      simp [execF]
  | cons e tr ih =>
      intro s d
      cases he : stepF delay s e with
      | mk s1 o =>
          have hexec : (execF delay s (e :: tr)).2 =
              o.toList ++ (execF delay s1 tr).2 := by
            rw [execF_cons, he]
          cases o with
          | none =>
              have hpri : s1.priorities = s.priorities := by
                cases e with
                | add u =>
                    have : s1 = add_url s u := by
                      have := congrArg Prod.fst he
                      simpa [stepF] using this.symm
                    rw [this, add_url_priorities]
                | complete u =>
                    have : s1 = mark_url_complete s u := by
                      have := congrArg Prod.fst he
                      simpa [stepF] using this.symm
                    rw [this, mark_url_complete_priorities]
                | next t t' =>
                    have : s1 = s := next_none_state delay s t t' s1 (by simpa [stepF] using he)
                    rw [this]
              rw [hexec]
              simp only [Option.toList_none, List.nil_append]
              refine ⟨(ih s1 d).1, ?_⟩
              intro r hr p hp
              exact (ih s1 d).2 r hr p (by rw [hpri]; exact hp)
          | some rec =>
              obtain ⟨d0, u, τ⟩ := rec
              have hnext : ∃ t t', e = FEvent.next t t' ∧
                  get_tbd_url_aux delay s t t' = (s1, some (d0, u, τ)) := by
                cases e with
                | add v => exact absurd (congrArg Prod.snd he) (by simp [stepF])
                | complete v => exact absurd (congrArg Prod.snd he) (by simp [stepF])
                | next t t' => exact ⟨t, t', rfl, by simpa [stepF] using he⟩
              obtain ⟨t, t', _, haux⟩ := hnext
              obtain ⟨hτ, hpgate, q', hpick, hs1⟩ := next_some_inv delay s t t' s1 d0 u τ haux
              rw [hexec]
              simp only [Option.toList_some, List.singleton_append, List.filter_cons]
              by_cases hd : d0 = d
              · subst hd
                simp only [decide_eq_true_eq, eq_self_iff_true, if_true]
                have hlook : alookup s1.priorities d0 = some (t' + delay) := by
                  rw [hs1]
                  exact alookup_aset_self _ _ _
                refine ⟨?_, ?_⟩
                · rw [List.chain'_cons']
                  refine ⟨?_, (ih s1 d0).1⟩
                  intro b hb
                  have := (ih s1 d0).2 b hb (t' + delay) hlook
                  subst hτ
                  simpa using this
                · intro r hr p hp
                  simp only [List.head?_cons, Option.mem_def, Option.some.injEq] at hr
                  subst hr
                  subst hτ
                  exact hpgate p hp
              · simp only [decide_eq_true_eq, if_neg hd]
                have hlook : alookup s1.priorities d = alookup s.priorities d := by
                  rw [hs1]
                  exact alookup_aset_ne _ _ _ _ hd
                refine ⟨(ih s1 d).1, ?_⟩
                intro r hr p hp
                exact (ih s1 d).2 r hr p (by rw [hlook]; exact hp)

/-- Claim C1: along any call sequence from any frontier state, the dispense
records of one host key are spaced at least `time_delay` apart: for
successive dispenses the earlier time plus the delay is at most the later
time.  The state machine covers every interleaving of `add_url`,
`get_tbd_url` and `mark_url_complete` calls, with arbitrary clock
readings. -/
theorem politeness_gap_per_host (delay : ℤ) (s0 : FState) (tr : List FEvent)
    (d : String) :
    List.Chain' (fun a b => a.2.2 + delay ≤ b.2.2)
      (((execF delay s0 tr).2).filter (fun r => decide (r.1 = d))) :=
  (exec_polite delay tr s0 d).1

/-! ## Multiset bookkeeping for the queues -/

/-- The queued URLs of an association list of host queues. -/
def flatQ (qs : List (String × List String)) : List String :=
  (qs.map (fun q => q.2)).flatten

theorem allQueued_eq (s : FState) : allQueued s = flatQ s.queues := rfl

/-- Replacing one host's queue: as multisets, the old value is exchanged
for the new one. -/
theorem flatQ_aset (qs : List (String × List String)) (d : String)
    (q' : List String) :
    (flatQ (aset qs d q') : Multiset String) + (qget qs d : Multiset String) =
      (flatQ qs : Multiset String) + (q' : Multiset String) := by
  induction qs with
  | nil => simp [aset, flatQ, qget, alookup]
  | cons e t ih =>
      cases e with
      | mk k v =>
          by_cases h : k = d
          · subst h
            have e1 : aset ((k, v) :: t) k q' = (k, q') :: t := by simp [aset]
            have e2 : qget ((k, v) :: t) k = v := by simp [qget, alookup]
            have e3 : flatQ ((k, q') :: t) = q' ++ flatQ t := by simp [flatQ]
            have e4 : flatQ ((k, v) :: t) = v ++ flatQ t := by simp [flatQ]
            rw [e1, e2, e3, e4, ← Multiset.coe_add, ← Multiset.coe_add]
            abel
          · have e1 : aset ((k, v) :: t) d q' = (k, v) :: aset t d q' := by
              simp [aset, h]
            have e2 : qget ((k, v) :: t) d = qget t d := by
              simp [qget, alookup, h]
            have e3 : ∀ l, flatQ ((k, v) :: l) = v ++ flatQ l := by
              intro l; simp [flatQ]
            rw [e1, e2, e3, e3, ← Multiset.coe_add, ← Multiset.coe_add]
            calc (v : Multiset String) + ↑(flatQ (aset t d q')) + ↑(qget t d)
                = ↑v + (↑(flatQ (aset t d q')) + ↑(qget t d)) := by
                  rw [add_assoc]
              _ = ↑v + (↑(flatQ t) + ↑q') := by rw [ih]
              _ = ↑v + ↑(flatQ t) + ↑q' := by rw [add_assoc]

/-- Appending to one host's queue adds that URL to the multiset. -/
theorem flatQ_appendQ (qs : List (String × List String)) (d u : String) :
    (flatQ (appendQ qs d u) : Multiset String) =
      (flatQ qs : Multiset String) + {u} := by
  have h := flatQ_aset qs d (qget qs d ++ [u])
  have h2 : ((qget qs d ++ [u] : List String) : Multiset String) =
      (qget qs d : Multiset String) + {u} := by
    rw [← Multiset.coe_add, Multiset.coe_singleton]
  rw [h2] at h
  have h3 : (flatQ (appendQ qs d u) : Multiset String) + ↑(qget qs d) =
      (↑(flatQ qs) + {u}) + (↑(qget qs d) : Multiset String) := by
    unfold appendQ
    rw [h]
    abel
  exact add_right_cancel h3

/-- Any member of a host's queue is among the queued URLs. -/
theorem qget_mem_flatQ (qs : List (String × List String)) (d u : String)
    (h : u ∈ qget qs d) : u ∈ flatQ qs := by
  induction qs with
  | nil => simp [qget, alookup] at h
  | cons e t ih =>
      cases e with
      | mk k v =>
          simp only [flatQ, List.map_cons, List.flatten_cons, List.mem_append]
          by_cases hk : k = d
          · left
            simpa [qget, alookup, hk] using h
          · right
            have : u ∈ qget t d := by simpa [qget, alookup, hk] using h
            simpa [flatQ] using ih this

/-- The URL picked by `get_tbd_url` is removed from its queue: as
multisets, the old queue is the picked URL plus the remainder. -/
theorem pickUrl_multiset (ip : List String) :
    ∀ {q : List String} {u : String} {q' : List String},
      pickUrl ip q = some (u, q') →
      (q : Multiset String) = u ::ₘ (q' : Multiset String) := by
  intro q
  induction q with
  | nil => intro u q' h; exact absurd h (by simp [pickUrl])
  | cons x t ih =>
      intro u q' h
      unfold pickUrl at h
      by_cases hx : ip.contains x = true
      · rw [if_pos hx] at h
        cases hp : pickUrl ip t with
        | none => rw [hp] at h; exact absurd h (by simp)
        | some p =>
            rw [hp] at h
            cases p with
            | mk w rest =>
                injection h with h1
                injection h1 with hu hq
                subst hu hq
                calc ((x :: t : List String) : Multiset String)
                    = x ::ₘ (t : Multiset String) := (Multiset.cons_coe _ _).symm
                  _ = x ::ₘ (w ::ₘ (rest : Multiset String)) := by rw [ih hp]
                  _ = w ::ₘ (x ::ₘ (rest : Multiset String)) :=
                      Multiset.cons_swap _ _ _
                  _ = w ::ₘ ((x :: rest : List String) : Multiset String) := by
                      rw [Multiset.cons_coe]
      · rw [if_neg hx] at h
        injection h with h1
        injection h1 with hu hq
        subst hu hq
        rfl

/-! ## Frontier step inversions for the queue bookkeeping -/

/-- `add_url` either leaves the state unchanged or, for the normalized,
valid, unseen URL, records it in the save and appends it to its host
queue. -/
theorem add_url_cases (s : FState) (u : String) :
    add_url s u = s ∨
    (is_valid (normalize u) = true ∧
     alookup s.save (get_urlhash (normalize u)) = none ∧
     add_url s u =
       { s with
         save := aset s.save (get_urlhash (normalize u)) (normalize u, false),
         queues := appendQ s.queues (netlocOf (normalize u)) (normalize u) }) := by
  unfold add_url
  split
  · exact Or.inl rfl
  · dsimp only
    split
    · exact Or.inl rfl
    · rename_i hval
      cases hl : alookup s.save (get_urlhash (normalize u)) with
      | some v => exact Or.inl rfl
      | none =>
          right
          exact ⟨by simpa using hval, by simp [hl], rfl⟩

theorem mark_url_complete_queues (s : FState) (u : String) :
    (mark_url_complete s u).queues = s.queues := by
  unfold mark_url_complete
  split
  · rfl
  · split <;> rfl

/-- `mark_url_complete` changes no save key's presence, and an existing
binding `(u, true)` survives any completion. -/
theorem mark_url_complete_save (s : FState) (u v : String)
    (h : alookup s.save v = some (v, true)) :
    alookup (mark_url_complete s u).save v = some (v, true) := by
  unfold mark_url_complete
  split
  · exact h
  · split
    · exact h
    · rename_i url hsome
      dsimp only
      by_cases huv : u = v
      · subst huv
        rw [show get_urlhash u = u from rfl, alookup_aset_self]
      · rw [show get_urlhash u = u from rfl, alookup_aset_ne _ _ _ _ huv]
        exact h

/-- `mark_url_complete` keeps every present save key present. -/
theorem mark_url_complete_save_isSome (s : FState) (u v : String)
    (h : (alookup s.save v).isSome = true) :
    (alookup (mark_url_complete s u).save v).isSome = true := by
  unfold mark_url_complete
  split
  · exact h
  · split
    · exact h
    · dsimp only
      by_cases huv : u = v
      · subst huv
        rw [show get_urlhash u = u from rfl, alookup_aset_self]
        rfl
      · rw [show get_urlhash u = u from rfl, alookup_aset_ne _ _ _ _ huv]
        exact h

/-! ## The queue/save invariant behind URL uniqueness -/

/-- Invariant: the queued URLs together with the already-dispensed ones
form a multiset without duplicates, and each of them is recorded in the
save store. -/
def QInv (s : FState) (disp : Multiset String) : Prop :=
  ((allQueued s : Multiset String) + disp).Nodup ∧
  ∀ u : String, u ∈ (allQueued s : Multiset String) + disp →
    (alookup s.save u).isSome = true

theorem QInv_add (s : FState) (disp : Multiset String) (u : String)
    (h : QInv s disp) : QInv (add_url s u) disp := by
  rcases add_url_cases s u with heq | ⟨hval, hnone, heq⟩
  · rw [heq]; exact h
  · have hM : (allQueued (add_url s u) : Multiset String) =
        (allQueued s : Multiset String) + {normalize u} := by
      rw [heq]
      show (flatQ (appendQ s.queues (netlocOf (normalize u)) (normalize u)) :
        Multiset String) = _
      rw [flatQ_appendQ]
      rfl
    have hsave : (add_url s u).save =
        aset s.save (normalize u) (normalize u, false) :=
      congrArg FState.save heq
    have hnotin : normalize u ∉ (allQueued s : Multiset String) + disp := by
      intro hmem
      have hs := h.2 _ hmem
      rw [show get_urlhash (normalize u) = normalize u from rfl] at hnone
      rw [hnone] at hs
      exact absurd hs (by simp)
    constructor
    · rw [hM]
      have hre : (allQueued s : Multiset String) + {normalize u} + disp =
          normalize u ::ₘ ((allQueued s : Multiset String) + disp) := by
        rw [← Multiset.singleton_add]
        abel
      rw [hre, Multiset.nodup_cons]
      exact ⟨hnotin, h.1⟩
    · intro w hw
      rw [hM] at hw
      by_cases hwu : w = normalize u
      · subst hwu
        rw [hsave, alookup_aset_self]
        rfl
      · rw [hsave, alookup_aset_ne _ _ _ _ (fun hh => hwu hh.symm)]
        apply h.2
        rcases Multiset.mem_add.mp hw with hcase | hcase
        · rcases Multiset.mem_add.mp hcase with hc | hc
          · exact Multiset.mem_add.mpr (Or.inl hc)
          · exact absurd (Multiset.mem_singleton.mp hc) hwu
        · exact Multiset.mem_add.mpr (Or.inr hcase)

theorem QInv_complete (s : FState) (disp : Multiset String) (u : String)
    (h : QInv s disp) : QInv (mark_url_complete s u) disp := by
  have hq : allQueued (mark_url_complete s u) = allQueued s := by
    rw [allQueued_eq, allQueued_eq, mark_url_complete_queues]
  constructor
  · rw [hq]; exact h.1
  · intro w hw
    rw [hq] at hw
    exact mark_url_complete_save_isSome s u w (h.2 w hw)

/-- A successful dispense moves the picked URL from the queues to the
dispensed multiset; the invariant follows it. -/
theorem QInv_next (delay : ℤ) (s : FState) (t t' : ℤ) (s' : FState)
    (d u : String) (τ : ℤ) (disp : Multiset String)
    (haux : get_tbd_url_aux delay s t t' = (s', some (d, u, τ)))
    (h : QInv s disp) : QInv s' (u ::ₘ disp) := by
  obtain ⟨_, _, q', hpick, hs'⟩ := next_some_inv delay s t t' s' d u τ haux
  have hqget : (qget s.queues d : Multiset String) =
      u ::ₘ (q' : Multiset String) := pickUrl_multiset _ hpick
  have hMq : (allQueued s' : Multiset String) + ↑(qget s.queues d) =
      (allQueued s : Multiset String) + ↑q' := by
    rw [hs']
    exact flatQ_aset s.queues d q'
  have hM : (allQueued s' : Multiset String) + {u} =
      (allQueued s : Multiset String) := by
    have : (allQueued s' : Multiset String) + ({u} + ↑q') =
        (allQueued s : Multiset String) + ↑q' := by
      rw [Multiset.singleton_add, ← hqget]
      exact hMq
    have h2 : ((allQueued s' : Multiset String) + {u}) + ↑q' =
        (allQueued s : Multiset String) + ↑q' := by
      rw [add_assoc]
      exact this
    exact add_right_cancel h2
  have hsave : s'.save = s.save := by rw [hs']
  constructor
  · have : (allQueued s' : Multiset String) + (u ::ₘ disp) =
        (allQueued s : Multiset String) + disp := by
      rw [← Multiset.singleton_add, ← hM]
      abel
    rw [this]
    exact h.1
  · intro w hw
    rw [hsave]
    apply h.2
    have : (allQueued s' : Multiset String) + (u ::ₘ disp) =
        (allQueued s : Multiset String) + disp := by
      rw [← Multiset.singleton_add, ← hM]
      abel
    rw [← this]
    exact hw

/-- Along any run, the dispensed URLs extend the initial dispensed multiset
without ever creating a duplicate. -/
theorem exec_nodup (delay : ℤ) :
    ∀ (tr : List FEvent) (s : FState) (disp : Multiset String), QInv s disp →
      (disp + ((((execF delay s tr).2).map (fun r => r.2.1) : List String) :
        Multiset String)).Nodup := by
  intro tr
  induction tr with
  | nil =>
      intro s disp h
      simp only [execF, List.map_nil, Multiset.coe_nil, add_zero]
      exact Multiset.nodup_of_le (Multiset.le_add_left _ _) h.1
  | cons e tr ih =>
      intro s disp h
      cases he : stepF delay s e with
      | mk s1 o =>
          have hexec : (execF delay s (e :: tr)).2 =
              o.toList ++ (execF delay s1 tr).2 := by
            rw [execF_cons, he]
          cases o with
          | none =>
              have h1 : QInv s1 disp := by
                cases e with
                | add u =>
                    have hs1 : s1 = add_url s u := by
                      have := congrArg Prod.fst he
                      simpa [stepF] using this.symm
                    rw [hs1]
                    exact QInv_add s disp u h
                | complete u =>
                    have hs1 : s1 = mark_url_complete s u := by
                      have := congrArg Prod.fst he
                      simpa [stepF] using this.symm
                    rw [hs1]
                    exact QInv_complete s disp u h
                | next t t' =>
                    have hs1 : s1 = s :=
                      next_none_state delay s t t' s1 (by simpa [stepF] using he)
                    rw [hs1]
                    exact h
              rw [hexec]
              simp only [Option.toList_none, List.nil_append]
              exact ih s1 disp h1
          | some rec =>
              obtain ⟨d0, u, τ⟩ := rec
              have hnext : ∃ t t', get_tbd_url_aux delay s t t' =
                  (s1, some (d0, u, τ)) := by
                cases e with
                | add v => exact absurd (congrArg Prod.snd he) (by simp [stepF])
                | complete v => exact absurd (congrArg Prod.snd he) (by simp [stepF])
                | next t t' => exact ⟨t, t', by simpa [stepF] using he⟩
              obtain ⟨t, t', haux⟩ := hnext
              have h1 : QInv s1 (u ::ₘ disp) :=
                QInv_next delay s t t' s1 d0 u τ disp haux h
              rw [hexec]
              simp only [Option.toList_some, List.singleton_append, List.map_cons]
              have hre : disp + ((u :: ((execF delay s1 tr).2).map (fun r => r.2.1) :
                  List String) : Multiset String) =
                  (u ::ₘ disp) +
                    ((((execF delay s1 tr).2).map (fun r => r.2.1) : List String) :
                      Multiset String) := by
                rw [← Multiset.cons_coe, ← Multiset.singleton_add,
                  ← Multiset.singleton_add]
                abel
              rw [hre]
              exact ih s1 (u ::ₘ disp) h1

/-! ## Initial states satisfy the invariant -/

/-- Well-formedness of a persistent store as `shelve` produces it: keys are
unique, and each record's key is the fingerprint of its URL (identity in
this model). -/
def SaveWF (save0 : List (String × String × Bool)) : Prop :=
  (save0.map (fun e => e.1)).Nodup ∧ ∀ e ∈ save0, e.1 = e.2.1

theorem QInv_foldl_add (seeds : List String) :
    ∀ (s : FState) (disp : Multiset String), QInv s disp →
      QInv (seeds.foldl add_url s) disp := by
  induction seeds with
  | nil => intro s disp h; exact h
  | cons u rest ih =>
      intro s disp h
      exact ih (add_url s u) disp (QInv_add s disp u h)

/-- Loading a save file appends exactly the pending valid URLs. -/
theorem loadQueues_flatQ :
    ∀ (entries : List (String × String × Bool)) (qs : List (String × List String)),
      (flatQ (loadQueues entries qs) : Multiset String) =
        (flatQ qs : Multiset String) +
          ((entries.filter (fun e => !e.2.2 && is_valid e.2.1)).map
            (fun e => e.2.1) : List String) := by
  intro entries
  induction entries with
  | nil => intro qs; simp [loadQueues]
  | cons e rest ih =>
      intro qs
      obtain ⟨k, url, c⟩ := e
      by_cases hc : (!c && is_valid url) = true
      · rw [show loadQueues ((k, url, c) :: rest) qs =
            loadQueues rest (appendQ qs (netlocOf url) url) by
          simp [loadQueues, hc]]
        rw [ih, flatQ_appendQ]
        rw [show ((k, url, c) :: rest).filter (fun e => !e.2.2 && is_valid e.2.1) =
            (k, url, c) :: rest.filter (fun e => !e.2.2 && is_valid e.2.1) by
          simp [List.filter_cons, hc]]
        rw [List.map_cons, ← Multiset.cons_coe, ← Multiset.singleton_add]
        abel
      · rw [show loadQueues ((k, url, c) :: rest) qs = loadQueues rest qs by
          simp [loadQueues, hc]]
        rw [ih]
        rw [show ((k, url, c) :: rest).filter (fun e => !e.2.2 && is_valid e.2.1) =
            rest.filter (fun e => !e.2.2 && is_valid e.2.1) by
          simp [List.filter_cons, hc]]

/-- Any entry of an association list makes its key present. -/
theorem alookup_isSome_of_mem {l : List (String × String × Bool)}
    {e : String × String × Bool} (he : e ∈ l) :
    (alookup l e.1).isSome = true := by
  induction l with
  | nil => cases he
  | cons hd t ih =>
      obtain ⟨k0, v0⟩ := hd
      simp only [alookup]
      by_cases hk : k0 = e.1
      · rw [if_pos hk]; rfl
      · rw [if_neg hk]
        rcases List.mem_cons.mp he with rfl | hmem
        · exact absurd rfl hk
        · exact ih hmem

/-- With unique keys, lookup of a member's key yields its value. -/
theorem alookup_of_mem_nodup {l : List (String × String × Bool)}
    (hnd : (l.map (fun e => e.1)).Nodup)
    {e : String × String × Bool} (he : e ∈ l) :
    alookup l e.1 = some e.2 := by
  induction l with
  | nil => cases he
  | cons hd t ih =>
      obtain ⟨k0, v0⟩ := hd
      rcases List.mem_cons.mp he with rfl | hmem
      · simp [alookup]
      · have hk : k0 ≠ e.1 := by
          intro hk
          have : e.1 ∈ t.map (fun x => x.1) := List.mem_map.mpr ⟨e, hmem, rfl⟩
          rw [← hk] at this
          exact (List.nodup_cons.mp (by simpa using hnd)).1 this
        simp only [alookup, if_neg hk]
        exact ih (List.nodup_cons.mp (by simpa using hnd)).2 hmem

/-- The non-restart initial state over a non-empty store. -/
theorem initFrontier_false_nonempty (save0 : List (String × String × Bool))
    (seeds : List String) (hne : save0 ≠ []) :
    initFrontier false save0 seeds =
      { emptyFState with save := save0, queues := loadQueues save0 [] } := by
  simp [initFrontier, hne]

/-- Over a non-empty well-formed store, the loaded queues hold exactly the
pending valid URLs (as a multiset). -/
theorem initFrontier_queues (save0 : List (String × String × Bool))
    (seeds : List String) (hne : save0 ≠ []) :
    (allQueued (initFrontier false save0 seeds) : Multiset String) =
      ((save0.filter (fun e => !e.2.2 && is_valid e.2.1)).map
        (fun e => e.2.1) : List String) := by
  rw [initFrontier_false_nonempty save0 seeds hne]
  show ((flatQ (loadQueues save0 []) : List String) : Multiset String) = _
  rw [loadQueues_flatQ save0 []]
  rw [show flatQ ([] : List (String × List String)) = [] from rfl]
  simp

/-- The frontier's initial state satisfies the invariant with nothing
dispensed. -/
theorem QInv_init (restart : Bool) (save0 : List (String × String × Bool))
    (seeds : List String) (hWF : SaveWF save0) :
    QInv (initFrontier restart save0 seeds) 0 := by
  have hempty : ∀ sv : List (String × String × Bool),
      QInv { emptyFState with save := sv, queues := [] } 0 := by
    intro sv
    constructor
    · simp [allQueued, flatQ]
    · intro w hw
      simp [allQueued, flatQ] at hw
  cases restart with
  | true =>
      show QInv (seeds.foldl add_url emptyFState) 0
      exact QInv_foldl_add seeds emptyFState 0 (hempty [])
  | false =>
      by_cases hnil : save0 = []
      · subst hnil
        show QInv (seeds.foldl add_url
          { emptyFState with save := [], queues := loadQueues [] [] }) 0
        exact QInv_foldl_add seeds _ 0 (hempty [])
      · have hALL := initFrontier_queues save0 seeds hnil
        have hsave : (initFrontier false save0 seeds).save = save0 := by
          rw [initFrontier_false_nonempty save0 seeds hnil]
        constructor
        · rw [add_zero, hALL]
          simp only [Multiset.coe_nodup]
          have hsub : ((save0.filter (fun e => !e.2.2 && is_valid e.2.1)).map
              (fun e => e.2.1)).Sublist (save0.map (fun e => e.2.1)) :=
            (List.filter_sublist save0).map _
          have hurls : save0.map (fun e => e.2.1) = save0.map (fun e => e.1) :=
            (List.map_congr_left (fun e he => (hWF.2 e he).symm))
          exact ((hurls ▸ hsub).nodup hWF.1)
        · intro w hw
          rw [add_zero, hALL] at hw
          have hmem := Multiset.mem_coe.mp hw
          obtain ⟨e, hef, hew⟩ := List.mem_map.mp hmem
          have hes : e ∈ save0 := List.mem_of_mem_filter hef
          have hkey : e.1 = w := (hWF.2 e hes).trans hew
          have hs := alookup_isSome_of_mem hes
          rw [hkey] at hs
          rw [hsave]
          exact hs

/-! ## Claim C3 — URL uniqueness of dispensing -/

/-- Claim C3: over the lifetime of one run — any start (fresh restart or a
well-formed reloaded store) followed by any sequence of `add_url`,
`get_tbd_url`, `mark_url_complete` calls — no URL is dispensed twice. -/
theorem dispense_unique (delay : ℤ) (restart : Bool)
    (save0 : List (String × String × Bool)) (seeds : List String)
    (tr : List FEvent) (hWF : SaveWF save0) :
    (dispensedUrls delay (initFrontier restart save0 seeds) tr).Nodup := by
  have h := exec_nodup delay tr (initFrontier restart save0 seeds) 0
    (QInv_init restart save0 seeds hWF)
  rw [zero_add] at h
  exact Multiset.coe_nodup.mp h

/-- Witness for `dispense_unique` on a fresh two-seed run with two
dispenses. -/
theorem dispense_unique_witness :
    (dispensedUrls 1 (initFrontier true []
      ["http://ics.uci.edu/a", "http://ics.uci.edu/b"])
      [FEvent.next 0 0, FEvent.next 1 1]).Nodup :=
  dispense_unique 1 true [] ["http://ics.uci.edu/a", "http://ics.uci.edu/b"]
    [FEvent.next 0 0, FEvent.next 1 1]
    ⟨List.nodup_nil, fun e he => absurd he (List.not_mem_nil e)⟩

/-! ## Claim C4 — restart loads exactly the pending URLs, completed URLs
are never re-dispensed -/

/-- A URL recorded completed and absent from all queues stays undispensed
along any run. -/
theorem exec_completed_not_dispensed (delay : ℤ) (u : String) :
    ∀ (tr : List FEvent) (s : FState),
      alookup s.save u = some (u, true) → u ∉ allQueued s →
      u ∉ ((execF delay s tr).2).map (fun r => r.2.1) := by
  intro tr
  induction tr with
  | nil =>
      intro s _ _
      simp [execF]
  | cons e tr ih =>
      intro s h1 h2
      cases he : stepF delay s e with
      | mk s1 o =>
          have hexec : (execF delay s (e :: tr)).2 =
              o.toList ++ (execF delay s1 tr).2 := by
            rw [execF_cons, he]
          cases o with
          | none =>
              have hstep : alookup s1.save u = some (u, true) ∧
                  u ∉ allQueued s1 := by
                cases e with
                | add v =>
                    have hs1 : s1 = add_url s v := by
                      have := congrArg Prod.fst he
                      simpa [stepF] using this.symm
                    subst hs1
                    rcases add_url_cases s v with heq | ⟨hval, hnone, heq⟩
                    · rw [heq]; exact ⟨h1, h2⟩
                    · have hne : normalize v ≠ u := by
                        intro hvu
                        rw [show get_urlhash (normalize v) = normalize v
                          from rfl, hvu, h1] at hnone
                        cases hnone
                      constructor
                      · have hsv : (add_url s v).save =
                            aset s.save (normalize v) (normalize v, false) :=
                          congrArg FState.save heq
                        rw [hsv, alookup_aset_ne _ _ _ _ hne]
                        exact h1
                      · intro hmem
                        have hM : (allQueued (add_url s v) : Multiset String) =
                            (allQueued s : Multiset String) + {normalize v} := by
                          rw [heq]
                          show (flatQ (appendQ s.queues (netlocOf (normalize v))
                            (normalize v)) : Multiset String) = _
                          rw [flatQ_appendQ]
                          rfl
                        have : u ∈ (allQueued (add_url s v) : Multiset String) :=
                          Multiset.mem_coe.mpr hmem
                        rw [hM] at this
                        rcases Multiset.mem_add.mp this with hc | hc
                        · exact h2 (Multiset.mem_coe.mp hc)
                        · exact hne (Multiset.mem_singleton.mp hc).symm
                | complete v =>
                    have hs1 : s1 = mark_url_complete s v := by
                      have := congrArg Prod.fst he
                      simpa [stepF] using this.symm
                    subst hs1
                    refine ⟨mark_url_complete_save s v u h1, ?_⟩
                    rw [allQueued_eq, mark_url_complete_queues]
                    exact h2
                | next t t' =>
                    have hs1 : s1 = s :=
                      next_none_state delay s t t' s1 (by simpa [stepF] using he)
                    rw [hs1]
                    exact ⟨h1, h2⟩
              rw [hexec]
              simp only [Option.toList_none, List.nil_append]
              exact ih s1 hstep.1 hstep.2
          | some rec =>
              obtain ⟨d0, u0, τ⟩ := rec
              have hnext : ∃ t t', get_tbd_url_aux delay s t t' =
                  (s1, some (d0, u0, τ)) := by
                cases e with
                | add v => exact absurd (congrArg Prod.snd he) (by simp [stepF])
                | complete v => exact absurd (congrArg Prod.snd he) (by simp [stepF])
                | next t t' => exact ⟨t, t', by simpa [stepF] using he⟩
              obtain ⟨t, t', haux⟩ := hnext
              obtain ⟨_, _, q', hpick, hs'⟩ :=
                next_some_inv delay s t t' s1 d0 u0 τ haux
              have hqget : (qget s.queues d0 : Multiset String) =
                  u0 ::ₘ (q' : Multiset String) := pickUrl_multiset _ hpick
              have hu0 : u0 ∈ allQueued s := by
                apply qget_mem_flatQ s.queues d0
                have : u0 ∈ (qget s.queues d0 : Multiset String) := by
                  rw [hqget]; exact Multiset.mem_cons_self _ _
                exact Multiset.mem_coe.mp this
              have hne0 : u0 ≠ u := fun hh => h2 (hh ▸ hu0)
              have hsave1 : s1.save = s.save := by rw [hs']
              have hM : (allQueued s1 : Multiset String) + {u0} =
                  (allQueued s : Multiset String) := by
                have hMq : (allQueued s1 : Multiset String) + ↑(qget s.queues d0) =
                    (allQueued s : Multiset String) + ↑q' := by
                  rw [hs']
                  exact flatQ_aset s.queues d0 q'
                have h3 : ((allQueued s1 : Multiset String) + {u0}) + ↑q' =
                    (allQueued s : Multiset String) + ↑q' := by
                  rw [add_assoc, Multiset.singleton_add, ← hqget]
                  exact hMq
                exact add_right_cancel h3
              have hnq : u ∉ allQueued s1 := by
                intro hmem
                apply h2
                have : u ∈ (allQueued s1 : Multiset String) + {u0} :=
                  Multiset.mem_add.mpr (Or.inl (Multiset.mem_coe.mpr hmem))
                rw [hM] at this
                exact Multiset.mem_coe.mp this
              rw [hexec]
              simp only [Option.toList_some, List.singleton_append,
                List.map_cons, List.mem_cons]
              intro hcase
              rcases hcase with hc | hc
              · exact hne0 hc.symm
              · exact ih s1 (hsave1 ▸ h1) hnq hc

/-- Claim C4: starting with `restart=false` over an existing (non-empty,
well-formed) store, the host queues collectively hold exactly the stored
URLs with `completed=false` that pass `is_valid`; and a URL recorded
completed is never dispensed in the new run, whatever the call sequence. -/
theorem restart_pending_exact_completed_never_redispensed
    (save0 : List (String × String × Bool)) (seeds : List String)
    (hWF : SaveWF save0) (hne : save0 ≠ []) :
    ((allQueued (initFrontier false save0 seeds) : Multiset String) =
      ((save0.filter (fun e => !e.2.2 && is_valid e.2.1)).map
        (fun e => e.2.1) : List String)) ∧
    (∀ (u : String) (delay : ℤ) (tr : List FEvent),
      alookup save0 u = some (u, true) →
      u ∉ dispensedUrls delay (initFrontier false save0 seeds) tr) := by
  refine ⟨initFrontier_queues save0 seeds hne, ?_⟩
  intro u delay tr hcomp
  apply exec_completed_not_dispensed
  · rw [congrArg FState.save (initFrontier_false_nonempty save0 seeds hne)]
    exact hcomp
  · intro hmem
    have hmq : u ∈ (allQueued (initFrontier false save0 seeds) : Multiset String) :=
      Multiset.mem_coe.mpr hmem
    rw [initFrontier_queues save0 seeds hne] at hmq
    obtain ⟨e, hef, hew⟩ := List.mem_map.mp (Multiset.mem_coe.mp hmq)
    have hes : e ∈ save0 := List.mem_of_mem_filter hef
    have hkey : e.1 = u := (hWF.2 e hes).trans hew
    have hl := alookup_of_mem_nodup hWF.1 hes
    rw [hkey, hcomp] at hl
    injection hl with hv
    have hff := List.of_mem_filter hef
    rw [← hv] at hff
    simp at hff

/-- Witness for `restart_pending_exact_completed_never_redispensed`: add
`u1..u10`, complete `u1..u5`, restart from the resulting store; the queues
hold exactly `u6..u10` and `u1` is not dispensed. -/
theorem restart_pending_exact_witness :
    ((allQueued (initFrontier false
        ((execF 1 (initFrontier true [] [])
          [FEvent.add "http://ics.uci.edu/u1", FEvent.add "http://ics.uci.edu/u2",
           FEvent.add "http://ics.uci.edu/u3", FEvent.add "http://ics.uci.edu/u4",
           FEvent.add "http://ics.uci.edu/u5", FEvent.add "http://ics.uci.edu/u6",
           FEvent.add "http://ics.uci.edu/u7", FEvent.add "http://ics.uci.edu/u8",
           FEvent.add "http://ics.uci.edu/u9", FEvent.add "http://ics.uci.edu/u10",
           FEvent.complete "http://ics.uci.edu/u1",
           FEvent.complete "http://ics.uci.edu/u2",
           FEvent.complete "http://ics.uci.edu/u3",
           FEvent.complete "http://ics.uci.edu/u4",
           FEvent.complete "http://ics.uci.edu/u5"]).1).save []) :
      Multiset String) =
      (["http://ics.uci.edu/u6", "http://ics.uci.edu/u7", "http://ics.uci.edu/u8",
        "http://ics.uci.edu/u9", "http://ics.uci.edu/u10"] : List String)) ∧
    "http://ics.uci.edu/u1" ∉ dispensedUrls 1 (initFrontier false
        ((execF 1 (initFrontier true [] [])
          [FEvent.add "http://ics.uci.edu/u1", FEvent.add "http://ics.uci.edu/u2",
           FEvent.add "http://ics.uci.edu/u3", FEvent.add "http://ics.uci.edu/u4",
           FEvent.add "http://ics.uci.edu/u5", FEvent.add "http://ics.uci.edu/u6",
           FEvent.add "http://ics.uci.edu/u7", FEvent.add "http://ics.uci.edu/u8",
           FEvent.add "http://ics.uci.edu/u9", FEvent.add "http://ics.uci.edu/u10",
           FEvent.complete "http://ics.uci.edu/u1",
           FEvent.complete "http://ics.uci.edu/u2",
           FEvent.complete "http://ics.uci.edu/u3",
           FEvent.complete "http://ics.uci.edu/u4",
           FEvent.complete "http://ics.uci.edu/u5"]).1).save [])
      [FEvent.next 0 0, FEvent.next 1 1] := by
  have h := restart_pending_exact_completed_never_redispensed
    ((execF 1 (initFrontier true [] [])
      [FEvent.add "http://ics.uci.edu/u1", FEvent.add "http://ics.uci.edu/u2",
       FEvent.add "http://ics.uci.edu/u3", FEvent.add "http://ics.uci.edu/u4",
       FEvent.add "http://ics.uci.edu/u5", FEvent.add "http://ics.uci.edu/u6",
       FEvent.add "http://ics.uci.edu/u7", FEvent.add "http://ics.uci.edu/u8",
       FEvent.add "http://ics.uci.edu/u9", FEvent.add "http://ics.uci.edu/u10",
       FEvent.complete "http://ics.uci.edu/u1",
       FEvent.complete "http://ics.uci.edu/u2",
       FEvent.complete "http://ics.uci.edu/u3",
       FEvent.complete "http://ics.uci.edu/u4",
       FEvent.complete "http://ics.uci.edu/u5"]).1).save []
    ⟨by decide, by decide⟩ (by decide)
  exact ⟨h.1.trans (by decide),
    h.2 "http://ics.uci.edu/u1" 1 [FEvent.next 0 0, FEvent.next 1 1] (by decide)⟩

end Crawler
